import Mathlib

/-!
Shallow embedding of `pages/help_dialog_page.js` (the Vimium help-dialog page
controller) together with proofs about its pure core.

JavaScript strings are sequences of UTF-16 code units; we model them as
`List Char` (all strings occurring here are ASCII, where the two notions of
code unit and code point coincide) and compare characters by their numeric
code, exactly as the JS `<` operator on strings does.  Object literals such as
the binding table `commandToOptionsToKeys` are modelled as association lists
in insertion order, which is also the order `Object.entries` enumerates
non-numeric string keys.
-/

namespace HelpDialog

/-- JS code-unit comparison of two strings (`a < b`): lexicographic on the
numeric character codes, with a proper initial segment comparing smaller. -/
def ltChars : List Char → List Char → Bool
  | _, [] => false
  | [], _ :: _ => true
  | a :: as, b :: bs =>
    if a.toNat < b.toNat then true
    else if b.toNat < a.toNat then false
    else ltChars as bs

/-- JS `s.replace("<", "~")`: replace the FIRST occurrence (only) of the
character `<` by `~`; the string is unchanged when no `<` occurs. -/
def replaceFirstLt : List Char → List Char
  | [] => []
  | c :: cs => if c = '<' then '~' :: cs else c :: replaceFirstLt cs

/-- `compareKeys` from `help_dialog_page.js` lines 6-16: compare two key
labels after substituting the first `<` of each by `~`. -/
def compareKeys (a b : List Char) : Int :=
  let a2 := replaceFirstLt a
  let b2 := replaceFirstLt b
  if ltChars a2 b2 then -1
  else if ltChars b2 a2 then 1
  else 0

/-- The constant `ellipsis = "..."` (line 18). -/
def ellipsis : List Char := ['.', '.', '.']

/-- `ellipsize` (lines 20-23): truncate `s` and append an ellipsis if `s` is
longer than `maxLength`.  The JS call site can pass a negative number, so the
bound is an integer, and `Math.max(0, maxLength - ellipsis.length)` clamps the
substring length at zero. -/
def ellipsize (s : List Char) (maxLength : Int) : List Char :=
  if (s.length : Int) ≤ maxLength then s
  else s.take (max 0 (maxLength - (ellipsis.length : Int))).toNat ++ ellipsis

/-- A command definition, as produced in `background_scripts/all_commands.js`
(imported by this page; the file is outside the provided slice, so commands
are treated as opaque records carrying the fields this page reads): a name, a
description, an optional group (reading a missing `group` property in JS
yields `undefined`), and an `advanced` flag (missing means falsy). -/
structure Command where
  name : String
  desc : List Char
  group : Option String
  advanced : Bool
deriving DecidableEq, Repr

/-- Whether `s` begins with `pat` (code-unit wise); used to express JS
`String.prototype.includes`. -/
def startsWithSub : List Char → List Char → Bool
  | _, [] => true
  | [], _ :: _ => false
  | c :: cs, p :: ps => c == p && startsWithSub cs ps

/-- JS `s.includes(pat)`: some (contiguous) substring of `s` equals `pat`. -/
def containsSub : List Char → List Char → Bool
  | [], pat => pat.isEmpty
  | c :: rest, pat => startsWithSub (c :: rest) pat || containsSub rest pat

/-- The literal `"hard"` of line 29. -/
def hardChars : List Char := ['h', 'a', 'r', 'd']

/-- `isAdvancedCommand` (lines 26-30). -/
def isAdvancedCommand (command : Command) (options : List Char) : Bool :=
  command.advanced || (command.name == "reload" && containsSub options hardChars)

/-- ASCII alphanumeric characters (digits, upper- and lower-case letters), by
character code; vocabulary for stating how `compareKeys` places named-key
labels relative to plain alphanumeric ones. -/
def isAlphanumeric (c : Char) : Bool :=
  (48 ≤ c.toNat && c.toNat ≤ 57) ||
    (65 ≤ c.toNat && c.toNat ≤ 90) ||
    (97 ≤ c.toNat && c.toNat ≤ 122)

/-- The binding table `commandToOptionsToKeys`: command name → options string
→ list of key labels, as nested association lists in insertion order. -/
abbrev OptionsToKeys := List (List Char × List (List Char))

/-- See `OptionsToKeys`. -/
abbrev BindingTable := List (String × OptionsToKeys)

/-- JS property lookup `commandToOptionsToKeys[command.name] || {}`
(line 84): the entry for `name`, or the empty object. -/
def tableLookup (table : BindingTable) (name : String) : OptionsToKeys :=
  match table.find? (fun e => e.1 == name) with
  | some e => e.2
  | none => []

/-- The group key under which a command is filed: `Object.groupBy` converts
the grouping value to a property key, so a command with no `group` field is
filed under the literal string `"undefined"`. -/
def groupKeyOf (c : Command) : String :=
  match c.group with
  | some g => g
  | none => "undefined"

/-- The group keys of `Object.groupBy(allCommands, o => o.group)` in the
order `Object.entries` yields them: first occurrence order.  (JS would front
integer-like keys; Vimium group names are plain words, and no claim concerns
the relative order of groups.) -/
def groupKeys : List Command → List String
  | [] => []
  | c :: rest => groupKeyOf c :: (groupKeys rest).filter (fun g => g != groupKeyOf c)

/-- `Object.entries(Object.groupBy(allCommands, o => o.group))` (line 78):
each group key paired with the commands filed under it, in original order. -/
def groupByCommands (cmds : List Command) : List (String × List Command) :=
  (groupKeys cmds).map (fun g => (g, cmds.filter (fun c => groupKeyOf c == g)))

/-- A row of the help dialog: the `[command, options, keys]` triple pushed at
line 86. -/
abbrev Row := Command × List Char × List (List Char)

/-- `getRowsForDialog` (lines 76-92), with `allCommands` — imported from
outside this file — made an explicit parameter. -/
def getRowsForDialog (allCommands : List Command) (table : BindingTable) :
    List (String × List Row) :=
  (groupByCommands allCommands).map (fun ge =>
    (ge.1, ge.2.flatMap (fun command =>
      (tableLookup table command.name).map (fun v => (command, v.1, v.2)))))

/-- `keys.sort(compareKeys)` (line 104).  ECMAScript requires `sort` to be
stable, and for a consistent comparator (which `compareKeys` is) the stable
ascending reordering is unique, so any conforming engine produces the stable
sort by `compareKeys a b ≤ 0`; we use insertion sort, which is stable. -/
def sortKeysJS (keys : List (List Char)) : List (List Char) :=
  keys.insertionSort (fun a b => compareKeys a b ≤ 0)

/-- What `getRowEl` (lines 94-124) renders into the row element: the
`advanced` CSS class, the key labels in display order, the final
`.help-description` text content, and its `title` attribute (`none` when the
attribute is never assigned). -/
structure RenderedRow where
  advanced : Bool
  sortedKeys : List (List Char)
  label : List Char
  title : Option (List Char)
deriving DecidableEq, Repr

/-- `getRowEl` (lines 94-124).  Besides the rendered row we return the
post-state of the `keys` array: `keys.sort(compareKeys)` at line 104 sorts
the array IN PLACE, so the caller's array is left reordered. -/
def getRowEl (command : Command) (options : List Char) (keys : List (List Char)) :
    RenderedRow × List (List Char) :=
  let advanced := isAdvancedCommand command options
  let sortedKeys := sortKeysJS keys
  let maxLength : Int := 40
  if options = [] then
    ({ advanced := advanced, sortedKeys := sortedKeys,
       label := command.desc, title := none }, sortedKeys)
  else
    let optionsString := ellipsize options (maxLength - (command.desc.length : Int))
    let label := command.desc ++ (' ' :: '(' :: (optionsString ++ [')']))
    let title := if optionsString ≠ options
      then some (command.desc ++ (' ' :: '(' :: (options ++ [')'])))
      else none
    ({ advanced := advanced, sortedKeys := sortedKeys,
       label := label, title := title }, sortedKeys)

/-- The net effect of `show()` (lines 126-146) on the binding table it was
given.  `getRowsForDialog` stores REFERENCES to the table's key arrays in its
rows, and `getRowEl` then sorts each rendered row's `keys` array in place
(line 104), so after rendering, every key list belonging to a command name
that occurs in `allCommands` has been replaced by its sorted version; entries
for names outside `allCommands` produce no row and are untouched. -/
def renderTableEffect (allCommands : List Command) (table : BindingTable) :
    BindingTable :=
  table.map (fun e =>
    if allCommands.any (fun c => c.name == e.1)
    then (e.1, e.2.map (fun v => (v.1, sortKeysJS v.2)))
    else e)

/-- The page state that `toggleAdvancedCommands` / `showAdvancedCommands`
(lines 155-177) read and write: the persisted
`helpDialog_showAdvancedCommands` setting, the presence of the
`show-advanced` class on the dialog root, and the toggle link's caption.
(The scroll-position adjustment of lines 162-166 concerns DOM layout
quantities and is not part of this state.) -/
structure DialogState where
  showAdvancedSetting : Bool
  showAdvancedClass : Bool
  toggleCaption : String
deriving DecidableEq, Repr

/-- `showAdvancedCommands(visible)` (lines 169-177). -/
def showAdvancedCommands (visible : Bool) (st : DialogState) : DialogState :=
  { st with
    toggleCaption := if visible then "Hide advanced commands" else "Show advanced commands",
    showAdvancedClass := visible }

/-- `toggleAdvancedCommands` (lines 155-167): flip the persisted flag, update
caption and class. -/
def toggleAdvancedCommands (st : DialogState) : DialogState :=
  let showAdvanced := st.showAdvancedSetting
  let st2 := showAdvancedCommands (!showAdvanced) st
  { st2 with showAdvancedSetting := !showAdvanced }

/-- The four branches of the message handler's `switch` (lines 185-201). -/
inductive HandlerAction where
  | hideDialog
  | showDialog
  | abandonHud
  | assertionFailure
deriving DecidableEq, Repr

/-- The dispatch of the registered message handler (lines 182-202) on
`event.data.name`. -/
def handleMessage (name : String) : HandlerAction :=
  match name with
  | "hide" => .hideDialog
  | "show" => .showDialog
  | "hidden" => .abandonHud
  | _ => .assertionFailure

/-! Order-theoretic facts about the character-list comparison. -/

theorem ltChars_irrefl : ∀ a : List Char, ltChars a a = false
  | [] => rfl
  | c :: cs => by simp [ltChars, ltChars_irrefl cs]

theorem ltChars_trans : ∀ {a b c : List Char},
    ltChars a b = true → ltChars b c = true → ltChars a c = true
  | [], _ :: _, _ :: _, _, _ => rfl
  | [], [], _, h1, _ => by simp [ltChars] at h1
  | _, _ :: _, [], _, h2 => by simp [ltChars] at h2
  | _ :: _, [], _, h1, _ => by simp [ltChars] at h1
  | a1 :: as, b1 :: bs, c1 :: cs, h1, h2 => by
    simp only [ltChars] at h1 h2 ⊢
    by_cases hab : a1.toNat < b1.toNat
    · by_cases hbc : b1.toNat < c1.toNat
      · rw [if_pos (by omega)]
      · rw [if_neg hbc] at h2
        by_cases hcb : c1.toNat < b1.toNat
        · rw [if_pos hcb] at h2
          exact absurd h2 (by decide)
        · rw [if_pos (by omega)]
    · rw [if_neg hab] at h1
      by_cases hba : b1.toNat < a1.toNat
      · rw [if_pos hba] at h1
        exact absurd h1 (by decide)
      · rw [if_neg hba] at h1
        by_cases hbc : b1.toNat < c1.toNat
        · rw [if_pos (by omega)]
        · rw [if_neg hbc] at h2
          by_cases hcb : c1.toNat < b1.toNat
          · rw [if_pos hcb] at h2
            exact absurd h2 (by decide)
          · rw [if_neg hcb] at h2
            rw [if_neg (by omega), if_neg (by omega)]
            exact ltChars_trans h1 h2

theorem ltChars_trichotomy : ∀ a b : List Char,
    ltChars a b = true ∨ a = b ∨ ltChars b a = true
  | [], [] => Or.inr (Or.inl rfl)
  | [], _ :: _ => Or.inl rfl
  | _ :: _, [] => Or.inr (Or.inr rfl)
  | a1 :: as, b1 :: bs => by
    rcases Nat.lt_trichotomy a1.toNat b1.toNat with hab | hab | hab
    · exact Or.inl (by simp [ltChars, hab])
    · have heq : a1 = b1 := Char.eq_of_val_eq (UInt32.toNat.inj hab)
      rcases ltChars_trichotomy as bs with h | h | h
      · exact Or.inl (by simp [ltChars, hab, heq, h])
      · exact Or.inr (Or.inl (by rw [heq, h]))
      · exact Or.inr (Or.inr (by simp [ltChars, heq, h]))
    · exact Or.inr (Or.inr (by simp [ltChars, hab]))

theorem ltChars_asymm {a b : List Char} (h : ltChars a b = true) : ltChars b a = false := by
  cases hx : ltChars b a
  · rfl
  · have hcontra := ltChars_trans h hx
    rw [ltChars_irrefl] at hcontra
    exact absurd hcontra (by decide)

theorem ltChars_append_left : ∀ (p a b : List Char),
    ltChars (p ++ a) (p ++ b) = ltChars a b
  | [], _, _ => rfl
  | c :: p, a, b => by simp [ltChars, ltChars_append_left p a b]

/-! Facts about the first-occurrence substitution. -/

theorem replaceFirstLt_of_not_mem : ∀ {l : List Char}, '<' ∉ l → replaceFirstLt l = l
  | [], _ => rfl
  | c :: cs, h => by
    have hc : ¬ (c = '<') := by
      intro hc
      subst hc
      exact h (List.mem_cons_self _ _)
    have hcs : '<' ∉ cs := fun hm => h (List.mem_cons_of_mem c hm)
    simp only [replaceFirstLt, if_neg hc, replaceFirstLt_of_not_mem hcs]

theorem replaceFirstLt_append : ∀ {p : List Char} (s : List Char), '<' ∉ p →
    replaceFirstLt (p ++ '<' :: s) = p ++ '~' :: s
  | [], s, _ => by simp [replaceFirstLt]
  | c :: p, s, h => by
    have hc : ¬ (c = '<') := by
      intro hc
      subst hc
      exact h (List.mem_cons_self _ _)
    have hp : '<' ∉ p := fun hm => h (List.mem_cons_of_mem c hm)
    simp only [List.cons_append, replaceFirstLt, if_neg hc, List.append_eq,
      replaceFirstLt_append s hp]

/-! Claim theorems. -/

/-- C1 (counterexample): `ellipsize` does not always return a string of length
exactly `maxLength` when it truncates: for `s = "abcd"` and `maxLength = 2`
the input is longer than the bound, yet the result has length `3`, not `2`
(it is just the bare ellipsis). -/
theorem ellipsize_length_cx :
    2 < ((['a', 'b', 'c', 'd'] : List Char).length : Int) ∧
    ((ellipsize ['a', 'b', 'c', 'd'] 2).length : Int) ≠ 2 ∧
    ellipsize ['a', 'b', 'c', 'd'] 2 = ellipsis := by
  decide

/-- C1 (amended): if `length s ≤ n` then `ellipsize s n = s`; otherwise the
result ends with `"..."` and has length `max n 3` (so exactly `n` whenever
`n ≥ 3`, but `3` for smaller bounds, because the ellipsis is appended whole
to a start segment clamped at length zero). -/
theorem ellipsize_spec (s : List Char) (n : Int) :
    ((s.length : Int) ≤ n → ellipsize s n = s) ∧
    (n < (s.length : Int) →
      ((ellipsize s n).length : Int) = max n 3 ∧ ∃ t, ellipsize s n = t ++ ellipsis) := by
  constructor
  · intro h
    simp [ellipsize, h]
  · intro h
    have hnot : ¬ ((s.length : Int) ≤ n) := by omega
    refine ⟨?_, ⟨s.take (max 0 (n - (ellipsis.length : Int))).toNat, by simp [ellipsize, hnot]⟩⟩
    simp only [ellipsize, hnot, if_false, List.length_append, List.length_take]
    simp only [ellipsis, List.length_cons, List.length_nil]
    push_cast
    omega

/-- C1 (witness): on `"abc"` with bound `5` the string is returned unchanged;
on `"abcdefg"` with bound `5` the result has length `max 5 3 = 5` and carries
the ellipsis. -/
theorem ellipsize_spec_witness :
    ellipsize ['a', 'b', 'c'] 5 = ['a', 'b', 'c'] ∧
    ((ellipsize ['a', 'b', 'c', 'd', 'e', 'f', 'g'] 5).length : Int) = max 5 3 ∧
    ∃ t, ellipsize ['a', 'b', 'c', 'd', 'e', 'f', 'g'] 5 = t ++ ellipsis := by
  exact ⟨(ellipsize_spec ['a', 'b', 'c'] 5).1 (by decide),
    (ellipsize_spec ['a', 'b', 'c', 'd', 'e', 'f', 'g'] 5).2 (by decide)⟩

/-- C2 (counterexample): it is not true that every label containing `<` sorts
after every label without it: `"a<"` contains `<`, `"z"` does not, yet
`compareKeys "a<" "z" = -1` (the comparison is decided by the earlier
characters `a` vs `z` before the substituted `~` ever matters). -/
theorem compareKeys_named_cx :
    '<' ∈ (['a', '<'] : List Char) ∧
    '<' ∉ (['z'] : List Char) ∧
    compareKeys ['a', '<'] ['z'] = -1 := by
  decide

/-- C2 (amended): all else equal, a named-key label sorts strictly after a
plain one: if two labels agree except at one position, where the first has
the marker `<` and the second has an alphanumeric character, and the marker
occurs nowhere else in either label, then `compareKeys` puts the first label
after the second. -/
theorem compareKeys_named_after_plain (p s : List Char) (c : Char)
    (hp : '<' ∉ p) (hs : '<' ∉ s) (hc : isAlphanumeric c = true) :
    compareKeys (p ++ '<' :: s) (p ++ c :: s) = 1 := by
  have hcn : c.toNat < 126 := by
    simp only [isAlphanumeric, Bool.or_eq_true, Bool.and_eq_true, decide_eq_true_eq] at hc
    omega
  have hcne : c ≠ '<' := by
    intro he
    rw [he] at hc
    exact absurd hc (by decide)
  have hb : replaceFirstLt (p ++ c :: s) = p ++ c :: s :=
    replaceFirstLt_of_not_mem (by
      intro hm
      rcases List.mem_append.mp hm with h | h
      · exact hp h
      · rcases List.mem_cons.mp h with h | h
        · exact hcne h.symm
        · exact hs h)
  have ha : replaceFirstLt (p ++ '<' :: s) = p ++ '~' :: s := replaceFirstLt_append s hp
  have htilde : ('~' : Char).toNat = 126 := rfl
  have h1 : ltChars (p ++ c :: s) (p ++ '~' :: s) = true := by
    rw [ltChars_append_left]
    simp [ltChars, htilde, hcn]
  have h2 : ltChars (p ++ '~' :: s) (p ++ c :: s) = false := ltChars_asymm h1
  simp only [compareKeys, ha, hb, h1, h2, Bool.false_eq_true, if_false, if_true]

/-- C2 (witness): `compareKeys "j<" "ja" = 1`, by the amended theorem at
`p = "j"`, `s = ""`, `c = 'a'`. -/
theorem compareKeys_named_after_plain_witness :
    compareKeys ['j', '<'] ['j', 'a'] = 1 :=
  compareKeys_named_after_plain ['j'] [] 'a' (by decide) (by decide) (by decide)

theorem startsWithSub_iff : ∀ (s p : List Char),
    startsWithSub s p = true ↔ ∃ q, s = p ++ q
  | s, [] => by simp [startsWithSub]
  | [], p1 :: ps => by simp [startsWithSub]
  | c :: cs, p1 :: ps => by
    simp only [startsWithSub, Bool.and_eq_true, beq_iff_eq, startsWithSub_iff cs ps,
      List.cons_append, List.cons.injEq]
    constructor
    · rintro ⟨hcp, q, hq⟩
      exact ⟨q, hcp, hq⟩
    · rintro ⟨q, hcp, hq⟩
      exact ⟨hcp, q, hq⟩

theorem containsSub_iff : ∀ (s p : List Char),
    containsSub s p = true ↔ ∃ q r, s = q ++ (p ++ r)
  | [], p => by
    cases p with
    | nil => simp [containsSub]
    | cons p1 ps => simp [containsSub, List.isEmpty]
  | c :: rest, p => by
    simp only [containsSub, Bool.or_eq_true, startsWithSub_iff, containsSub_iff rest p]
    constructor
    · rintro (⟨q, hq⟩ | ⟨q, r, hqr⟩)
      · exact ⟨[], q, by simpa using hq⟩
      · exact ⟨c :: q, r, by simp [hqr]⟩
    · rintro ⟨q, r, hqr⟩
      cases q with
      | nil => exact Or.inl ⟨r, by simpa using hqr⟩
      | cons q1 qs =>
        simp only [List.cons_append, List.cons.injEq] at hqr
        exact Or.inr ⟨qs, r, hqr.2⟩

/-- C5: `isAdvancedCommand` holds for a command statically flagged
`advanced`, whatever the options; otherwise it holds exactly when the command
is named `"reload"` and the option string contains `"hard"` as a substring;
for any other unflagged command it is false. -/
theorem isAdvancedCommand_spec (command : Command) (options : List Char) :
    isAdvancedCommand command options = true ↔
      (command.advanced = true ∨
        (command.name = "reload" ∧ ∃ q r, options = q ++ (hardChars ++ r))) := by
  simp only [isAdvancedCommand, Bool.or_eq_true, Bool.and_eq_true, beq_iff_eq,
    containsSub_iff]

/-- C7: starting from any dialog state whose rendered advanced-visibility
state (the `show-advanced` class and the toggle caption) agrees with the
persisted `helpDialog_showAdvancedCommands` setting — which is how
`show()` initializes it — applying `toggleAdvancedCommands` twice restores
the state, persisted setting included, exactly. -/
theorem toggleAdvancedCommands_round_trip (st : DialogState)
    (hclass : st.showAdvancedClass = st.showAdvancedSetting)
    (hcap : st.toggleCaption =
      (if st.showAdvancedSetting then "Hide advanced commands" else "Show advanced commands")) :
    toggleAdvancedCommands (toggleAdvancedCommands st) = st := by
  obtain ⟨setting, cls, cap⟩ := st
  simp only at hclass hcap
  subst hclass
  cases cls <;> simp_all [toggleAdvancedCommands, showAdvancedCommands]

/-- C7 (witness): the round trip at the default state (setting `false`,
class absent, caption "Show advanced commands"). -/
theorem toggleAdvancedCommands_round_trip_witness :
    toggleAdvancedCommands (toggleAdvancedCommands
      ⟨false, false, "Show advanced commands"⟩) =
      ⟨false, false, "Show advanced commands"⟩ :=
  toggleAdvancedCommands_round_trip ⟨false, false, "Show advanced commands"⟩ rfl rfl

/-- C8: the message handler hits the fatal `Utils.assert(false, ...)` branch
exactly on those message names that are none of `"show"`, `"hide"`,
`"hidden"`. -/
theorem handleMessage_assertion_iff (name : String) :
    (handleMessage name == HandlerAction.assertionFailure) =
      (!(name == "show") && !(name == "hide") && !(name == "hidden")) := by
  unfold handleMessage
  split
  · rfl
  · rfl
  · rfl
  · rename_i h1 h2 h3
    have e1 : (name == "show") = false := by simpa using h2
    have e2 : (name == "hide") = false := by simpa using h1
    have e3 : (name == "hidden") = false := by simpa using h3
    simp [e1, e2, e3]

/-- C6: for nonempty options the rendered label is the description followed
by the parenthesized option string, the option string alone being truncated
by `ellipsize` with budget `40 - length desc`; the hover `title` is assigned
exactly when truncation changed the option string, and then carries the full
untruncated text; for empty options the label is the bare description and no
title is assigned. -/
theorem getRowEl_label_title (command : Command) (options : List Char)
    (keys : List (List Char)) :
    (options = [] →
      (getRowEl command options keys).1.label = command.desc ∧
      (getRowEl command options keys).1.title = none) ∧
    (options ≠ [] →
      (getRowEl command options keys).1.label =
        command.desc ++ (' ' :: '(' ::
          (ellipsize options (40 - (command.desc.length : Int)) ++ [')'])) ∧
      (getRowEl command options keys).1.title =
        (if ellipsize options (40 - (command.desc.length : Int)) ≠ options
         then some (command.desc ++ (' ' :: '(' :: (options ++ [')'])))
         else none)) := by
  constructor
  · intro h
    simp [getRowEl, h]
  · intro h
    simp [getRowEl, h]

/-- C6 (witness): the spec scenario: command `"reload"` with description
"Reload the page" and options `"hard"`; the budget `40 - 15 = 25` exceeds
the option length, so the label is "Reload the page (hard)" untruncated and
no hover title is assigned. -/
theorem getRowEl_label_title_witness :
    (getRowEl ⟨"reload", "Reload the page".data, some "misc", false⟩
        "hard".data []).1.label = "Reload the page (hard)".data ∧
    (getRowEl ⟨"reload", "Reload the page".data, some "misc", false⟩
        "hard".data []).1.title = none := by
  have h := (getRowEl_label_title
    ⟨"reload", "Reload the page".data, some "misc", false⟩ "hard".data []).2 (by decide)
  exact ⟨h.1.trans (by decide), h.2.trans (by decide)⟩

/-- C3 (counterexample): the binding table IS mutated by rendering: the
in-place `keys.sort(compareKeys)` of `getRowEl` reorders the table's key
arrays through the references stored by `getRowsForDialog`.  With the single
command `"reload"` bound to keys `["j", "a"]`, the table after rendering
holds `["a", "j"]`, not the original order. -/
theorem renderTableEffect_cx :
    renderTableEffect [⟨"reload", ['R'], some "misc", false⟩]
        [("reload", [([], [['j'], ['a']])])] ≠
      [("reload", [([], [['j'], ['a']])])] := by
  decide

theorem forall₂_map_sortKeys (l : OptionsToKeys) :
    List.Forall₂ (fun v v2 => v.1 = v2.1 ∧ v.2.Perm v2.2) l
      (l.map (fun v => (v.1, sortKeysJS v.2))) := by
  induction l with
  | nil => exact List.Forall₂.nil
  | cons v rest ih => exact List.Forall₂.cons ⟨rfl, (List.perm_insertionSort _ _).symm⟩ ih

/-- C3 (amended): rendering never changes the table's structure — entry for
entry, the command name is unchanged, every option string is unchanged, and
every key list keeps the same elements (as a multiset) — but the in-place
`keys.sort(compareKeys)` of `getRowEl` may permute the elements of the key
lists of rendered commands, so original element order is not preserved. -/
theorem renderTableEffect_preserves (cmds : List Command) (table : BindingTable) :
    List.Forall₂ (fun e e2 => e.1 = e2.1 ∧
        List.Forall₂ (fun v v2 => v.1 = v2.1 ∧ v.2.Perm v2.2) e.2 e2.2)
      table (renderTableEffect cmds table) := by
  induction table with
  | nil => exact List.Forall₂.nil
  | cons e rest ih =>
    simp only [renderTableEffect, List.map_cons] at ih ⊢
    refine List.Forall₂.cons ?_ ih
    by_cases hm : (cmds.any (fun c => c.name == e.1)) = true
    · simp only [hm, if_true]
      exact ⟨by simp, forall₂_map_sortKeys e.2⟩
    · simp only [hm, if_false]
      exact ⟨by simp, List.forall₂_same.mpr (fun v _ => ⟨rfl, List.Perm.refl _⟩)⟩

theorem tableLookup_eq_nil {table : BindingTable} {name : String}
    (habsent : ∀ e ∈ table, e.1 ≠ name) : tableLookup table name = [] := by
  have hnone : table.find? (fun e => e.1 == name) = none := by
    rw [List.find?_eq_none]
    intro e he
    simpa using habsent e he
  rw [tableLookup, hnone]

/-- C4: a command whose name has no entry in the binding table contributes no
row: every row produced by `getRowsForDialog`, in any group, has a command
name different from any name absent from the table. -/
theorem getRowsForDialog_omits_unbound (cmds : List Command) (table : BindingTable)
    (name : String) (habsent : ∀ e ∈ table, e.1 ≠ name) :
    ∀ g rows, (g, rows) ∈ getRowsForDialog cmds table →
      ∀ command opts keys, (command, opts, keys) ∈ rows → command.name ≠ name := by
  intro g rows hg command opts keys hrow
  simp only [getRowsForDialog, List.mem_map] at hg
  obtain ⟨ge, hge, heq⟩ := hg
  have hrows : rows =
      ge.2.flatMap (fun c => (tableLookup table c.name).map (fun v => (c, v.1, v.2))) := by
    have hsnd := congrArg Prod.snd heq
    simpa using hsnd.symm
  rw [hrows] at hrow
  simp only [List.mem_flatMap, List.mem_map] at hrow
  obtain ⟨c, hc, v, hv, hveq⟩ := hrow
  have hcmd : command = c := by
    have hfst := congrArg Prod.fst hveq
    simpa using hfst.symm
  subst hcmd
  intro hname
  rw [hname] at hv
  rw [tableLookup_eq_nil habsent] at hv
  exact absurd hv (List.not_mem_nil v)

/-- C4 (witness): with commands `reload` (bound) and `scrollDown` (absent
from the table), the theorem applies to the one row the dialog renders. -/
theorem getRowsForDialog_omits_unbound_witness :
    (⟨"reload", ['R'], some "misc", false⟩ : Command).name ≠ "scrollDown" :=
  getRowsForDialog_omits_unbound
    [⟨"reload", ['R'], some "misc", false⟩, ⟨"scrollDown", ['S'], some "scrolling", false⟩]
    [("reload", [([], [['r']])])] "scrollDown" (by decide)
    "misc" [(⟨"reload", ['R'], some "misc", false⟩, [], [['r']])] (by decide)
    ⟨"reload", ['R'], some "misc", false⟩ [] [['r']] (by decide)

theorem getRowsForDialog_map_fst (cmds : List Command) (table : BindingTable) :
    (getRowsForDialog cmds table).map Prod.fst = groupKeys cmds := by
  simp only [getRowsForDialog, groupByCommands, List.map_map]
  simp [Function.comp_def]

theorem mem_groupKeys : ∀ (cmds : List Command) (g : String),
    g ∈ groupKeys cmds ↔ ∃ c ∈ cmds, groupKeyOf c = g
  | [], g => by simp [groupKeys]
  | c :: rest, g => by
    simp only [groupKeys, List.mem_cons, List.mem_filter,
      mem_groupKeys rest g, bne_iff_ne, ne_eq]
    constructor
    · rintro (h | ⟨⟨c2, hc2, hkey⟩, _⟩)
      · exact ⟨c, Or.inl rfl, h.symm⟩
      · exact ⟨c2, Or.inr hc2, hkey⟩
    · rintro ⟨c2, hmem, hkey⟩
      rcases hmem with rfl | hmem
      · exact Or.inl hkey.symm
      · by_cases hg : g = groupKeyOf c
        · exact Or.inl hg
        · exact Or.inr ⟨⟨c2, hmem, hkey⟩, hg⟩

/-- C10: the groups object returned by `getRowsForDialog` has as keys exactly
the group names occurring among `allCommands` (a missing `group` field being
filed under the literal string `"undefined"`); a group none of whose commands
occurs in the binding table is still a key, mapped to the empty row list. -/
theorem getRowsForDialog_groups (cmds : List Command) (table : BindingTable) :
    (∀ g, g ∈ (getRowsForDialog cmds table).map Prod.fst ↔ ∃ c ∈ cmds, groupKeyOf c = g) ∧
    (∀ g, g ∈ groupKeys cmds →
      (∀ c ∈ cmds, groupKeyOf c = g → ∀ e ∈ table, e.1 ≠ c.name) →
      (g, ([] : List Row)) ∈ getRowsForDialog cmds table) ∧
    (∀ c ∈ cmds, c.group = none →
      "undefined" ∈ (getRowsForDialog cmds table).map Prod.fst) := by
  refine ⟨?_, ?_, ?_⟩
  · intro g
    rw [getRowsForDialog_map_fst, mem_groupKeys]
  · intro g hg hnone
    simp only [getRowsForDialog, groupByCommands, List.map_map, List.mem_map,
      Function.comp_def]
    refine ⟨g, hg, ?_⟩
    simp only [Prod.mk.injEq, true_and]
    rw [List.flatMap_eq_nil_iff]
    intro c hcf
    have hcmem : c ∈ cmds ∧ groupKeyOf c = g := by
      have := List.mem_filter.mp hcf
      exact ⟨this.1, by simpa using this.2⟩
    rw [tableLookup_eq_nil (hnone c hcmem.1 hcmem.2)]
    rfl
  · intro c hc hgnone
    rw [getRowsForDialog_map_fst, mem_groupKeys]
    exact ⟨c, hc, by simp [groupKeyOf, hgnone]⟩

/-- C10 (witness): a single command named `"x"` with no group field and an
empty binding table: the key `"undefined"` is present and maps to no rows. -/
theorem getRowsForDialog_groups_witness :
    ("undefined" ∈ (getRowsForDialog [⟨"x", [], none, false⟩] []).map Prod.fst) ∧
    (("undefined", ([] : List Row)) ∈ getRowsForDialog [⟨"x", [], none, false⟩] []) := by
  constructor
  · exact (getRowsForDialog_groups [⟨"x", [], none, false⟩] []).2.2
      ⟨"x", [], none, false⟩ (by decide) rfl
  · exact (getRowsForDialog_groups [⟨"x", [], none, false⟩] []).2.1
      "undefined" (by decide) (by decide)

theorem compareKeys_le_zero_iff (a b : List Char) :
    compareKeys a b ≤ 0 ↔ ltChars (replaceFirstLt b) (replaceFirstLt a) = false := by
  cases h1 : ltChars (replaceFirstLt a) (replaceFirstLt b)
  · cases h2 : ltChars (replaceFirstLt b) (replaceFirstLt a)
    · simp [compareKeys, h1, h2]
    · simp [compareKeys, h1, h2]
  · simp [compareKeys, h1, ltChars_asymm h1]

/-- C9: `compareKeys` substitutes only the first `<` of each label, so it
identifies some distinct labels: `compareKeys "a<b" "a~b" = 0` although the
labels differ.  It is nevertheless a total preorder: the relation
`compareKeys a b ≤ 0` is total and transitive — but, by the first part, not
antisymmetric. -/
theorem compareKeys_preorder_not_antisymm :
    compareKeys ['a', '<', 'b'] ['a', '~', 'b'] = 0 ∧
    (['a', '<', 'b'] : List Char) ≠ ['a', '~', 'b'] ∧
    (∀ a b : List Char, compareKeys a b ≤ 0 ∨ compareKeys b a ≤ 0) ∧
    (∀ a b c : List Char,
      compareKeys a b ≤ 0 → compareKeys b c ≤ 0 → compareKeys a c ≤ 0) := by
  refine ⟨by decide, by decide, ?_, ?_⟩
  · intro a b
    rw [compareKeys_le_zero_iff, compareKeys_le_zero_iff]
    cases h1 : ltChars (replaceFirstLt b) (replaceFirstLt a)
    · exact Or.inl rfl
    · exact Or.inr (ltChars_asymm h1)
  · intro a b c h1 h2
    rw [compareKeys_le_zero_iff] at h1 h2 ⊢
    cases hx : ltChars (replaceFirstLt c) (replaceFirstLt a)
    · rfl
    · exfalso
      rcases ltChars_trichotomy (replaceFirstLt a) (replaceFirstLt b) with hab | hab | hab
      · exact absurd (ltChars_trans hx hab) (by simp [h2])
      · rw [hab] at hx
        exact absurd hx (by simp [h2])
      · exact absurd hab (by simp [h1])

/-- C9 (witness): transitivity of `compareKeys · ≤ 0` applied at the labels
`"a"`, `"b"`, `"c"`. -/
theorem compareKeys_preorder_witness : compareKeys ['a'] ['c'] ≤ 0 :=
  compareKeys_preorder_not_antisymm.2.2.2 ['a'] ['b'] ['c'] (by decide) (by decide)

end HelpDialog
